import Mathlib

/-!
# Verification of the godobackend moderation + messaging core

Shallow embedding of the moderation pipeline (`moderation/utils.py`),
the chat consumer (`messaging/consumers.py`), the messaging views
(`messaging/views.py`, `messaging/models.py`) and the activity
participation workflow (`activities/models.py`, `activities/views.py`),
together with theorems settling the specification claims.

Python regular expressions used by the source are all alternation-free
sequences of character-class atoms with greedy quantifiers, so they are
embedded as lists of `RItem` (class, min-count, optional max-count) and
matched with the same greedy leftmost backtracking that Python's `re`
module uses on such patterns.  `re.findall` / `re.sub` both traverse the
subject left to right replacing non-overlapping matches; `reScan` below
performs that traversal once, returning the match list and the rewritten
text.  All text handled by the claims is ASCII, and `Char.toLower`
agrees with Python's `str.lower` on ASCII.
-/

namespace Godo

/-- One atom of an alternation-free regular expression: a character
class together with a greedy quantifier `{lo,hi}` (`hi = none` means
unbounded, as in `*`, `+` or `{n,}`). -/
structure RItem where
  cls : Char → Bool
  lo : Nat
  hi : Option Nat

/-- An alternation-free pattern is a sequence of atoms. -/
abbrev RPattern := List RItem

/-- Length of the longest prefix of `s` whose characters all satisfy `cls`. -/
def takeCls (cls : Char → Bool) : List Char → Nat
  | [] => 0
  | c :: rest => if cls c then takeCls cls rest + 1 else 0

/-- Largest repetition count the atom `it` may consume at the head of `s`. -/
def capOf (it : RItem) (s : List Char) : Nat :=
  match it.hi with
  | some h => min (takeCls it.cls s) h
  | none => takeCls it.cls s

/-- Greedy backtracking over the repetition count of one atom: try
`k, k-1, …` (at most `tries` further attempts), continuing with `next`
on the remaining input; mirrors how Python's engine backtracks a greedy
quantifier followed by the rest of the pattern. -/
def tryCounts (next : List Char → Option Nat) (s : List Char) : Nat → Nat → Option Nat
  | k, 0 => (next (List.drop k s)).map (fun m => k + m)
  | k, t + 1 =>
    ((next (List.drop k s)).map (fun m => k + m)).orElse
      (fun _ =>
        match k with
        | 0 => none
        | k' + 1 => tryCounts next s k' t)

/-- Match a pattern at the head of `s`, returning the length of the
(leftmost-greedy) match, exactly as Python matches an alternation-free
sequence of greedy atoms at a fixed position. -/
def matchItems : RPattern → List Char → Option Nat
  | [], _ => some 0
  | it :: rest, s =>
    let cap := capOf it s
    if cap < it.lo then none
    else tryCounts (matchItems rest) s cap (cap - it.lo)

/-- One left-to-right pass replacing non-overlapping matches (the common
traversal of `re.findall` and `re.sub`): at each position try a match;
a positive match is recorded, the replacement emitted and the scan
resumes after it; a zero-width match is recorded, the replacement
emitted and the current character kept (Python's splice-and-advance
behaviour for empty matches, including one final empty match at the end
of the subject); otherwise the character is kept and the scan advances.
`fuel` strictly exceeds the remaining input length, so it never runs
out. -/
def scanAux (p : RPattern) (repl : List Char) : Nat → List Char → List (List Char) × List Char
  | 0, s => ([], s)
  | _ + 1, [] =>
    match matchItems p [] with
    | some _ => ([[]], repl)
    | none => ([], [])
  | f + 1, c :: rest =>
    match matchItems p (c :: rest) with
    | some (k + 1) =>
      let pr := scanAux p repl f (List.drop k rest)
      (List.take (k + 1) (c :: rest) :: pr.1, repl ++ pr.2)
    | some 0 =>
      let pr := scanAux p repl f rest
      ([] :: pr.1, repl ++ c :: pr.2)
    | none =>
      let pr := scanAux p repl f rest
      (pr.1, c :: pr.2)

/-- Scan a whole subject: matches found plus rewritten text. -/
def reScan (p : RPattern) (repl : List Char) (s : List Char) : List (List Char) × List Char :=
  scanAux p repl (s.length + 1) s

/-- `re.search(p, s) is not None`: some position of `s` (the end
included) admits a match, zero-width matches counting. -/
def searchAux (p : RPattern) : List Char → Bool
  | [] => (matchItems p []).isSome
  | c :: rest => (matchItems p (c :: rest)).isSome || searchAux p rest

/-- `re.search` on a string subject. -/
def reSearch (p : RPattern) (s : String) : Bool := searchAux p s.data

/-- `re.findall(p, s)` for an alternation-free, group-free pattern. -/
def reFindall (p : RPattern) (s : String) : List String :=
  (reScan p [] s.data).1.map String.mk

/-- `re.sub(p, repl, s)` for an alternation-free pattern. -/
def reSub (p : RPattern) (repl : String) (s : String) : String :=
  String.mk (reScan p repl.data s.data).2

/-! ## Character classes used by `moderation/utils.py` -/

/-- `\d` -/
def isDigitCh (c : Char) : Bool := c.isDigit

/-- `\s` (Python: space, tab, newline, carriage return, vertical tab, form feed). -/
def isSpaceCh (c : Char) : Bool :=
  c == ' ' || c == '\t' || c == '\n' || c == '\r' || c == '\x0b' || c == '\x0c'

/-- `[-.\s]` -/
def isSepCh (c : Char) : Bool := c == '-' || c == '.' || isSpaceCh c

/-- `[a-zA-Z0-9._%+-]` (e-mail local part). -/
def emailLocalCh (c : Char) : Bool :=
  c.isAlphanum || c == '.' || c == '_' || c == '%' || c == '+' || c == '-'

/-- `[a-zA-Z0-9.-]` (e-mail domain). -/
def emailDomainCh (c : Char) : Bool := c.isAlphanum || c == '.' || c == '-'

/-- `[a-zA-Z]` -/
def isAlphaCh (c : Char) : Bool := c.isAlpha

/-- `[a-zA-Z0-9_]` -/
def wordCh (c : Char) : Bool := c.isAlphanum || c == '_'

/-- `[a-zA-Z0-9.]` (facebook handle class). -/
def fbCh (c : Char) : Bool := c.isAlphanum || c == '.'

/-! ## Atom constructors -/

/-- `c` (exact character). -/
def lit (c : Char) : RItem := ⟨fun x => x == c, 1, some 1⟩

/-- `c` under `re.IGNORECASE`: both sides are case-folded, so an
uppercase literal matches its lowercase form and vice versa (ASCII
folding, matching Python on ASCII). -/
def litCI (c : Char) : RItem := ⟨fun x => x.toLower == c.toLower, 1, some 1⟩

/-- `cls{n}` -/
def exactly (cls : Char → Bool) (n : Nat) : RItem := ⟨cls, n, some n⟩

/-- `cls{n,}` (`+` is `{1,}`). -/
def atLeast (cls : Char → Bool) (n : Nat) : RItem := ⟨cls, n, none⟩

/-- `cls{lo,hi}` -/
def between (cls : Char → Bool) (lo hi : Nat) : RItem := ⟨cls, lo, some hi⟩

/-- `cls?` -/
def opt (cls : Char → Bool) : RItem := ⟨cls, 0, some 1⟩

/-- `cls*` -/
def star (cls : Char → Bool) : RItem := ⟨cls, 0, none⟩

/-- A case-insensitive literal string as a pattern (`re.escape` + `re.IGNORECASE`). -/
def litStrCI (w : String) : RPattern := w.data.map litCI

/-! ## The patterns of `moderation/utils.py` -/

/-- `\+?90?\s*\d{3}\s*\d{3}\s*\d{2}\s*\d{2}` ("Turkish phone"). -/
def turkishPhonePat : RPattern :=
  [opt (fun c => c == '+'), lit '9', opt (fun c => c == '0'),
   star isSpaceCh, exactly isDigitCh 3, star isSpaceCh, exactly isDigitCh 3,
   star isSpaceCh, exactly isDigitCh 2, star isSpaceCh, exactly isDigitCh 2]

/-- `\+?\d{1,3}[-.\s]?\d{3}[-.\s]?\d{3}[-.\s]?\d{4}` ("International"). -/
def intlPhonePat : RPattern :=
  [opt (fun c => c == '+'), between isDigitCh 1 3, opt isSepCh, exactly isDigitCh 3,
   opt isSepCh, exactly isDigitCh 3, opt isSepCh, exactly isDigitCh 4]

/-- `\d{10,11}` ("Simple 10-11 digit"). -/
def simplePhonePat : RPattern := [between isDigitCh 10 11]

/-- `\(\d{3}\)\s*\d{3}[-.\s]?\d{4}` ("(XXX) XXX-XXXX"). -/
def parenPhonePat : RPattern :=
  [lit '(', exactly isDigitCh 3, lit ')', star isSpaceCh, exactly isDigitCh 3,
   opt isSepCh, exactly isDigitCh 4]

/-- `PHONE_PATTERNS` -/
def PHONE_PATTERNS : List RPattern :=
  [turkishPhonePat, intlPhonePat, simplePhonePat, parenPhonePat]

/-- `EMAIL_PATTERN = [a-zA-Z0-9._%+-]+@[a-zA-Z0-9.-]+\.[a-zA-Z]{2,}` -/
def EMAIL_PATTERN : RPattern :=
  [atLeast emailLocalCh 1, lit '@', atLeast emailDomainCh 1, lit '.', atLeast isAlphaCh 2]

/-- `@[a-zA-Z0-9_]{3,}` -/
def atHandlePat : RPattern := [lit '@', atLeast wordCh 3]

/-- `instagram\.com/[a-zA-Z0-9_]+` (compiled with `re.IGNORECASE`). -/
def instagramPat : RPattern := litStrCI "instagram.com/" ++ [atLeast wordCh 1]

/-- `twitter\.com/[a-zA-Z0-9_]+` -/
def twitterPat : RPattern := litStrCI "twitter.com/" ++ [atLeast wordCh 1]

/-- `facebook\.com/[a-zA-Z0-9.]+` -/
def facebookPat : RPattern := litStrCI "facebook.com/" ++ [atLeast fbCh 1]

/-- `t\.me/[a-zA-Z0-9_]+` (Telegram). -/
def telegramPat : RPattern := litStrCI "t.me/" ++ [atLeast wordCh 1]

/-- `SOCIAL_PATTERNS` -/
def SOCIAL_PATTERNS : List RPattern :=
  [atHandlePat, instagramPat, twitterPat, facebookPat, telegramPat]

/-! ## The content filter (`filter_ugc_content`) -/

/-- Redaction token substituted for phone numbers. -/
def telTok : String := "[telefon gizlendi]"

/-- Redaction token substituted for e-mail addresses. -/
def emailTok : String := "[email gizlendi]"

/-- Redaction token substituted for social-media handles. -/
def socialTok : String := "[sosyal medya gizlendi]"

/-- Redaction token substituted for banned words. -/
def contentTok : String := "[içerik gizlendi]"

/-- One entry of the `violations` list returned by `filter_ugc_content`:
`vtype` is the dictionary's `type` key and `matched` its `matches` key
(`matches` is a reserved token in Lean). -/
structure Violation where
  vtype : String
  matched : List String
deriving DecidableEq, Repr

/-- One pattern pass: if `re.findall` reports matches, record a violation
and substitute the redaction token (lines 63-81 of `moderation/utils.py`). -/
def runPat (ty : String) (p : RPattern) (repl : String)
    (st : String × List Violation) : String × List Violation :=
  let ms := reFindall p st.1
  if ms.isEmpty then st
  else (reSub p repl st.1, st.2 ++ [⟨ty, ms⟩])

/-- A list of patterns applied in order, each to the previous output. -/
def runPats (ty : String) (ps : List RPattern) (repl : String)
    (st : String × List Violation) : String × List Violation :=
  ps.foldl (fun st p => runPat ty p repl st) st

/-- One active `BannedWord` row: a literal word, or a regular expression
(kept here in compiled `RPattern` form next to its source text, which is
what the recorded violation reports). -/
inductive BannedEntry where
  | lit (word : String)
  | rx (pat : RPattern) (word : String)

/-- Case-insensitive list prefix test. -/
def startsWith : List Char → List Char → Bool
  | [], _ => true
  | _ :: _, [] => false
  | a :: as, b :: bs => a == b && startsWith as bs

/-- Substring occurrence test (Python's `in` on strings). -/
def occursIn (needle : List Char) : List Char → Bool
  | [] => startsWith needle []
  | hay@(_ :: rest) => startsWith needle hay || occursIn needle rest

/-- `word.lower() in text.lower()` (ASCII lowering). -/
def containsCI (word text : String) : Bool :=
  occursIn (word.data.map Char.toLower) (text.data.map Char.toLower)

/-- Pass 5 of the filter: the dynamic banned-word list, each entry either a
case-insensitive literal substring replace or a case-insensitive regex
replace (lines 88-105 of `moderation/utils.py`). -/
def runBanned : List BannedEntry → String × List Violation → String × List Violation
  | [], st => st
  | .lit w :: rest, st =>
    runBanned rest
      (if containsCI w st.1 then
        (reSub (litStrCI w) contentTok st.1, st.2 ++ [⟨"banned_word", [w]⟩])
      else st)
  | .rx p w :: rest, st =>
    runBanned rest
      (if reSearch p st.1 then
        (reSub p contentTok st.1, st.2 ++ [⟨"banned_word", [w]⟩])
      else st)

/-- Result dictionary of `filter_ugc_content`. -/
structure FilterResult where
  filtered_text : String
  original_text : String
  is_clean : Bool
  violations : List Violation
deriving DecidableEq, Repr

/-- Stages 1-3 of `filter_ugc_content` (`moderation/utils.py`,
lines 63-81): the phone, e-mail and social-media passes — the static
patterns compiled into the module, as opposed to the dynamic profanity
dictionary and banned-word rows of stages 4-5. -/
def static_filter_passes (t : String) : String × List Violation :=
  runPats "social_media" SOCIAL_PATTERNS socialTok
    (runPat "email" EMAIL_PATTERN emailTok
      (runPats "phone_number" PHONE_PATTERNS telTok (t, [])))

/-- `filter_ugc_content` (`moderation/utils.py`, lines 39-112).
The profanity pass delegates to the external `better_profanity` library,
embedded as the parameters `prof` (`profanity.contains_profanity`) and
`censor` (`profanity.censor`); the dynamic banned-word rows are the
parameter `banned`.  `text = none` is Python's `None`; `if not text`
also short-circuits the empty string. -/
def filter_ugc_content (prof : String → Bool) (censor : String → String)
    (banned : List BannedEntry) (text : Option String) : FilterResult :=
  match text with
  | none => ⟨"", "", true, []⟩
  | some t =>
    if t = "" then ⟨"", "", true, []⟩
    else
      let st3 := static_filter_passes t
      let st4 :=
        if prof st3.1 then (censor st3.1, st3.2 ++ [⟨"profanity", ([] : List String)⟩])
        else st3
      let st5 := runBanned banned st4
      ⟨st5.1, t, st5.2.isEmpty, st5.2⟩

/-! ## Message persistence (`messaging/models.py`, `messaging/consumers.py`,
`messaging/views.py`) -/

/-- A `Message` row (`messaging/models.py`, lines 69-117).  Django field
defaults: `is_filtered=False`, `original_content=''` (blank),
`is_read=False`, `read_at=None`. -/
structure MessageRec where
  conversation : Nat
  sender : Nat
  content : String
  is_filtered : Bool
  original_content : String
  is_read : Bool
  read_at : Option Int
  created_at : Int
deriving DecidableEq, Repr

/-- `ChatConsumer.save_message` (`messaging/consumers.py`, lines 141-173):
filter the raw content, then create the `Message` row.  The filter's
collaborators (`prof`, `censor`, `banned`) are threaded through. -/
def save_message (prof : String → Bool) (censor : String → String)
    (banned : List BannedEntry) (conversationId senderId : Nat) (now : Int)
    (content : String) : MessageRec :=
  let result := filter_ugc_content prof censor banned (some content)
  { conversation := conversationId
    sender := senderId
    content := if !result.is_clean then result.filtered_text else content
    is_filtered := !result.is_clean
    original_content := if !result.is_clean then content else ""
    is_read := false
    read_at := none
    created_at := now }

/-- The `Message.objects.create` call of `SendMessageView.post`
(`messaging/views.py`, lines 147-153); textually the same construction
as `ChatConsumer.save_message`. -/
def send_message_view_create (prof : String → Bool) (censor : String → String)
    (banned : List BannedEntry) (conversationId senderId : Nat) (now : Int)
    (content : String) : MessageRec :=
  let result := filter_ugc_content prof censor banned (some content)
  { conversation := conversationId
    sender := senderId
    content := if !result.is_clean then result.filtered_text else content
    is_filtered := !result.is_clean
    original_content := if !result.is_clean then content else ""
    is_read := false
    read_at := none
    created_at := now }

/-- `Message.mark_as_read` (`messaging/models.py`, lines 112-117): the only
code path that sets `read_at`. -/
def mark_as_read (m : MessageRec) (now : Int) : MessageRec :=
  if !m.is_read then { m with is_read := true, read_at := some now } else m

/-- The bulk mark-read queryset update
`messages.filter(is_read=False).exclude(sender=user).update(is_read=True)`
applied to one row of the message table.  The same queryset expression
appears verbatim in `ConversationDetailView.retrieve`
(`messaging/views.py`, line 44), `MarkMessagesReadView.post`
(`messaging/views.py`, lines 184-188) and
`ChatConsumer.mark_messages_read` (`messaging/consumers.py`,
lines 175-185); only rows of the addressed conversation are in the
queryset. -/
def bulk_read_row (conversationId requester : Nat) (m : MessageRec) : MessageRec :=
  if m.conversation == conversationId && m.is_read == false && m.sender != requester then
    { m with is_read := true }
  else m

/-- The bulk mark-read update over the whole message table. -/
def mark_messages_read (msgs : List MessageRec) (conversationId requester : Nat) :
    List MessageRec :=
  msgs.map (bulk_read_row conversationId requester)

/-! ## Chat consumer connection gate (`messaging/consumers.py`, lines 19-40
and 132-139) -/

/-- A `Conversation` row (`messaging/models.py`, lines 10-66). -/
structure ConvRec where
  id : Nat
  conversation_type : String
  participants : List Nat
deriving DecidableEq, Repr

/-- `ChatConsumer.check_participant`:
`Conversation.objects.filter(id=conversation_id, participants=user).exists()`. -/
def check_participant (convs : List ConvRec) (conversationId userId : Nat) : Bool :=
  convs.any fun c => c.id == conversationId && c.participants.contains userId

/-- Outcome of `ChatConsumer.connect`: the connection is either closed or
accepted into the room group (Joined). -/
inductive ConnectOutcome where
  | closed
  | joined
deriving DecidableEq, Repr

/-- The channel layer's group membership: (group name, channel) pairs. -/
structure GroupState where
  members : List (String × Nat)
deriving DecidableEq, Repr

/-- `self.room_group_name = f'chat_{self.conversation_id}'` -/
def room_group_name (conversationId : Nat) : String :=
  "chat_" ++ toString conversationId

/-- `ChatConsumer.connect`: `user = none` models a scope whose user is
missing or an `AnonymousUser` (`is_authenticated` false — the only
identities `JWTAuthMiddleware` produces besides real users).  Only when
the user is authenticated and `check_participant` holds is the channel
added to the room group and the connection accepted. -/
def connect (convs : List ConvRec) (g : GroupState) (conversationId : Nat)
    (user : Option Nat) (channel : Nat) : ConnectOutcome × GroupState :=
  match user with
  | none => (.closed, g)
  | some uid =>
    if check_participant convs conversationId uid then
      (.joined, ⟨g.members ++ [(room_group_name conversationId, channel)]⟩)
    else (.closed, g)

/-- `group_send` fan-out: the channels a broadcast to `room` reaches. -/
def group_send_targets (g : GroupState) (room : String) : List Nat :=
  (g.members.filter fun m => m.1 == room).map fun m => m.2

/-! ## Event delivery handlers (`messaging/consumers.py`, lines 82-130) -/

/-- A frame written back to one WebSocket client. -/
inductive Frame where
  | chat (content : String) (senderId : Nat) (is_filtered : Bool)
  | typing (user_id : Nat) (user_name : String) (is_typing : Bool)
  | readReceipt (user_id : Nat)
deriving DecidableEq, Repr

/-- `ChatConsumer.chat_message` (lines 108-113): every member's handler
forwards the broadcast message unconditionally — the receiving
connection's own user plays no role. -/
def chat_message_handler (_selfUserId : Nat) (msgContent : String)
    (msgSender : Nat) (msgFiltered : Bool) : Option Frame :=
  some (.chat msgContent msgSender msgFiltered)

/-- `ChatConsumer.typing_indicator` (lines 115-123): the frame is written
only when the event's `user_id` differs from the receiving connection's
user. -/
def typing_indicator_handler (selfUserId : Nat) (eventUserId : Nat)
    (eventUserName : String) (eventIsTyping : Bool) : Option Frame :=
  if eventUserId != selfUserId then
    some (.typing eventUserId eventUserName eventIsTyping)
  else none

/-- Fan-out of a `typing` group event (sent by `handle_typing` with
`user_id = sender`) to a list of joined connections, given as
(channel, user) pairs. -/
def broadcast_typing (members : List (Nat × Nat)) (senderId : Nat)
    (senderName : String) (isTyping : Bool) : List (Nat × Option Frame) :=
  members.map fun m => (m.1, typing_indicator_handler m.2 senderId senderName isTyping)

/-- Fan-out of a `chat_message` group event to joined connections. -/
def broadcast_chat (members : List (Nat × Nat)) (msgContent : String)
    (msgSender : Nat) (msgFiltered : Bool) : List (Nat × Option Frame) :=
  members.map fun m => (m.1, chat_message_handler m.2 msgContent msgSender msgFiltered)

/-! ## Conversation creation (`messaging/views.py`, lines 50-119) -/

/-- Result of `CreateConversationView.post`. -/
inductive CreateConvResult where
  | blockedError
  | existing (c : ConvRec)
  | created (c : ConvRec)
deriving DecidableEq, Repr

/-- The conversation table plus the id the next `create` receives;
`conversations` is kept in queryset order (`-last_message_at`, most
recent first), which is what `.first()` consults. -/
structure MessagingDB where
  conversations : List ConvRec
  nextConvId : Nat
deriving DecidableEq, Repr

/-- `CreateConversationView.post`.  `blockedFlat` is the flattened id set
of `BlockedUser` rows involving the requester; `activeUsers` the ids of
`is_active` users.  For a direct request with a single partner the view
looks for the first (most recent) direct conversation containing both
users and returns it only when it has exactly two participants;
otherwise it creates a new conversation whose participants are the
requester plus the active requested users
(`User.objects.filter(id__in=participant_ids, is_active=True)` returns
each user once, modelled by `dedup`, and the M2M `add` does not
duplicate the already-added requester).  A newly created conversation
has the newest `last_message_at`, hence is prepended. -/
def create_conversation (db : MessagingDB) (blockedFlat : List Nat)
    (requester : Nat) (participant_ids : List Nat) (activity_id : Option Nat)
    (activeUsers : List Nat) : CreateConvResult × MessagingDB :=
  if participant_ids.any (fun pid => blockedFlat.contains pid) then
    (.blockedError, db)
  else
    let newConv : ConvRec :=
      { id := db.nextConvId
        conversation_type := if activity_id.isSome then "activity" else "direct"
        participants :=
          requester ::
            ((participant_ids.filter (fun p => activeUsers.contains p)).dedup.filter
              (fun p => p != requester)) }
    let createdResult : CreateConvResult × MessagingDB :=
      (.created newConv, ⟨newConv :: db.conversations, db.nextConvId + 1⟩)
    match activity_id, participant_ids with
    | none, [pid] =>
      let existing :=
        (db.conversations.filter fun c =>
          c.conversation_type == "direct" && c.participants.contains requester
            && c.participants.contains pid).head?
      match existing with
      | some c => if c.participants.length == 2 then (.existing c, db) else createdResult
      | none => createdResult
    | _, _ => createdResult

/-! ## Activities (`activities/models.py`, `activities/views.py`) -/

/-- An `Activity` row (`activities/models.py`): the fields the status
machine and the capacity check read.  Times are instants on an integer
timeline. -/
structure ActivityRec where
  creator : Nat
  max_participants : Nat
  current_participants : Nat
  status : String
  start_time : Int
  end_time : Option Int
deriving DecidableEq, Repr

/-- `Activity.is_full` (line 132-134): `current_participants >= max_participants`. -/
def activity_is_full (a : ActivityRec) : Bool :=
  a.max_participants ≤ a.current_participants

/-- `Activity.spots_left` (lines 136-138): `max(0, max - current)`;
truncated `Nat` subtraction is exactly `max(0, ·)`. -/
def spots_left (a : ActivityRec) : Nat :=
  a.max_participants - a.current_participants

/-- `Activity.is_past` (lines 140-144): the end time, or the start time
when no end is set, lies strictly before `now`. -/
def activity_is_past (a : ActivityRec) (now : Int) : Bool :=
  match a.end_time with
  | none => a.start_time < now
  | some e => e < now

/-- The status recomputation `Activity.save` performs on every save
(lines 146-153). -/
def activity_save_status (a : ActivityRec) (now : Int) : String :=
  if activity_is_full a && a.status == "active" then "full"
  else if activity_is_past a now && (a.status == "active" || a.status == "full") then
    "completed"
  else a.status

/-- `Activity.save`: the record with its recomputed status. -/
def activity_save (a : ActivityRec) (now : Int) : ActivityRec :=
  { a with status := activity_save_status a now }

/-- An `ActivityParticipation` row (`activities/models.py`, lines 156-218). -/
structure ParticipationRec where
  user : Nat
  status : String
  group_member_count : Nat
  responded_at : Option Int
deriving DecidableEq, Repr

/-- `ActivityParticipation.approve` (lines 203-212): a no-op when already
approved; otherwise marks approved and adds `group_member_count` to the
activity's counter.  The activity is saved with
`update_fields=['current_participants']`, so only the counter is
persisted (the in-memory status recomputation of `Activity.save` is not
written). -/
def participation_approve (p : ParticipationRec) (a : ActivityRec) (now : Int) :
    ParticipationRec × ActivityRec :=
  if p.status != "approved" then
    ({ p with status := "approved", responded_at := some now },
     { a with current_participants := a.current_participants + p.group_member_count })
  else (p, a)

/-- `ActivityParticipation.reject` (lines 214-218). -/
def participation_reject (p : ParticipationRec) (now : Int) : ParticipationRec :=
  { p with status := "rejected", responded_at := some now }

/-- HTTP-visible outcome of `respond_to_application`. -/
inductive RespondStatus where
  | forbidden
  | capacityError
  | responded
deriving DecidableEq, Repr

/-- `respond_to_application` (`activities/views.py`, lines 277-323), acting
on an application already fetched from the activity; returns the outcome
together with the post-state of the participation and the activity (both
unchanged on every error path). -/
def respond_to_application (a : ActivityRec) (p : ParticipationRec)
    (requester : Nat) (act : String) (now : Int) :
    RespondStatus × ParticipationRec × ActivityRec :=
  if a.creator != requester then (.forbidden, p, a)
  else if act = "approve" then
    if spots_left a < p.group_member_count then (.capacityError, p, a)
    else
      let pa := participation_approve p a now
      (.responded, pa.1, pa.2)
  else
    (.responded, participation_reject p now, a)

/-! ## Supporting lemmas -/

/-- The filter's `is_clean` field is computed as `len(violations) == 0`. -/
theorem filter_is_clean_eq (prof : String → Bool) (censor : String → String)
    (banned : List BannedEntry) (t : Option String) :
    (filter_ugc_content prof censor banned t).is_clean =
      (filter_ugc_content prof censor banned t).violations.isEmpty := by
  cases t with
  | none => rfl
  | some s =>
    by_cases h : s = ""
    · subst h; rfl
    · simp only [filter_ugc_content, if_neg h]

end Godo

namespace Godo

/-- **C9.** For `None` and for the empty string, `filter_ugc_content`
short-circuits to a clean result with empty violations and empty
filtered text (it is a total function, so it cannot raise); and for
every input, the returned `is_clean` is `true` exactly when the
returned `violations` list is empty. -/
theorem filter_clean_input_invariant (prof : String → Bool)
    (censor : String → String) (banned : List BannedEntry) :
    filter_ugc_content prof censor banned none = ⟨"", "", true, []⟩ ∧
    filter_ugc_content prof censor banned (some "") = ⟨"", "", true, []⟩ ∧
    ∀ t, ((filter_ugc_content prof censor banned t).is_clean = true ↔
      (filter_ugc_content prof censor banned t).violations = []) := by
  refine ⟨rfl, rfl, fun t => ?_⟩
  rw [filter_is_clean_eq]
  exact List.isEmpty_iff

/-- **C1.** For every message send (both the WebSocket `save_message` path
and the HTTP `SendMessageView` path, which perform the same
construction): when the filter reports violations the stored row has
`content` = the filter's `filtered_text`, `is_filtered = true` and
`original_content` = the raw text; when it reports none the row keeps
the raw text, `is_filtered = false` and `original_content` empty; hence
`original_content` is non-empty only if `is_filtered` is true. -/
theorem message_persistence_filtering (prof : String → Bool)
    (censor : String → String) (banned : List BannedEntry)
    (cid sid : Nat) (now : Int) (raw : String) :
    send_message_view_create prof censor banned cid sid now raw =
      save_message prof censor banned cid sid now raw ∧
    ((filter_ugc_content prof censor banned (some raw)).violations ≠ [] →
      (save_message prof censor banned cid sid now raw).content =
        (filter_ugc_content prof censor banned (some raw)).filtered_text ∧
      (save_message prof censor banned cid sid now raw).is_filtered = true ∧
      (save_message prof censor banned cid sid now raw).original_content = raw) ∧
    ((filter_ugc_content prof censor banned (some raw)).violations = [] →
      (save_message prof censor banned cid sid now raw).content = raw ∧
      (save_message prof censor banned cid sid now raw).is_filtered = false ∧
      (save_message prof censor banned cid sid now raw).original_content = "") ∧
    ((save_message prof censor banned cid sid now raw).original_content ≠ "" →
      (save_message prof censor banned cid sid now raw).is_filtered = true) := by
  have hc := filter_is_clean_eq prof censor banned (some raw)
  by_cases hv : (filter_ugc_content prof censor banned (some raw)).violations = []
  · have hclean : (filter_ugc_content prof censor banned (some raw)).is_clean = true := by
      rw [hc, hv]; rfl
    refine ⟨rfl, fun h => absurd hv h, fun _ => ?_, fun h => ?_⟩
    · simp [save_message, hclean]
    · exfalso
      apply h
      simp [save_message, hclean]
  · have hclean : (filter_ugc_content prof censor banned (some raw)).is_clean = false := by
      rw [hc, List.isEmpty_eq_false_iff_exists_mem]
      rcases List.exists_mem_of_ne_nil _ hv with ⟨x, hx⟩
      exact ⟨x, hx⟩
    refine ⟨rfl, fun _ => ?_, fun h => absurd h hv, fun _ => ?_⟩
    · simp [save_message, hclean]
    · simp [save_message, hclean]

/-- Witness for C1 at a concrete filtered send: the raw text
`"1234567890"` matches the 10-digit phone pattern, so the stored row is
the redaction token with `is_filtered` and the raw original. -/
theorem message_persistence_filtering_witness :
    (filter_ugc_content (fun _ => false) id [] (some "1234567890")).violations ≠ [] ∧
    (save_message (fun _ => false) id [] 1 2 0 "1234567890").content =
      "[telefon gizlendi]" ∧
    (save_message (fun _ => false) id [] 1 2 0 "1234567890").is_filtered = true ∧
    (save_message (fun _ => false) id [] 1 2 0 "1234567890").original_content =
      "1234567890" := by
  have h :=
    (message_persistence_filtering (fun _ => false) id [] 1 2 0 "1234567890").2.1
      (by decide)
  refine ⟨by decide, ?_, h.2.1, h.2.2⟩
  rw [h.1]
  decide

/-- **C2.** The spec scenario fails on the code: posting
`"call me at 0532 123 45 67"` produces *no* violation — the "Turkish
phone" pattern `\+?90?\s*\d{3}\s*\d{3}\s*\d{2}\s*\d{2}` demands a
literal `9`, which this standard domestic-format number does not
contain, and no other phone pattern fits its 4-3-2-2 digit grouping —
so the stored message keeps the raw content with `is_filtered = false`
and empty `original_content`, contradicting the specified redaction. -/
theorem phone_scenario_not_redacted :
    filter_ugc_content (fun _ => false) id [] (some "call me at 0532 123 45 67") =
      ⟨"call me at 0532 123 45 67", "call me at 0532 123 45 67", true, []⟩ ∧
    save_message (fun _ => false) id [] 1 2 0 "call me at 0532 123 45 67" =
      { conversation := 1, sender := 2, content := "call me at 0532 123 45 67",
        is_filtered := false, original_content := "", is_read := false,
        read_at := none, created_at := 0 } := by
  constructor <;> decide

/-! ## Idempotence of the filter (C3)

The static passes can never re-fire on their own output.  The proof
rests on a decomposition semantics for the greedy matcher: `Matches p w`
says the text `w` splits into consecutive runs, one per atom of `p`,
each within its quantifier bounds.  `matchItems` is sound and complete
for it.  Every redaction token is `'['`-…-`']'`-delimited, no atom of
any static pattern accepts a bracket, and a substitution never makes two
previously non-adjacent input characters adjacent — so any match in a
pass's output would lie either inside a token interior (impossible: the
interiors contain no digit, `@` or `.`) or inside a run of kept input
characters, at a position where the scan already failed to match. -/

/-- A run consuming one atom: length within the quantifier bounds, every
character in the class. -/
def itFits (it : RItem) (run : List Char) : Prop :=
  it.lo ≤ run.length ∧ (∀ h, it.hi = some h → run.length ≤ h) ∧
    ∀ c ∈ run, it.cls c = true

/-- `w` is a (context-independent) match of the pattern: it decomposes
into consecutive runs, one per atom. -/
inductive Matches : RPattern → List Char → Prop where
  | nil : Matches [] []
  | cons {it : RItem} {rest : RPattern} {run w : List Char} :
      itFits it run → Matches rest w → Matches (it :: rest) (run ++ w)

/-- The pattern has a mandatory atom, so no match of it is empty. -/
def hasPosB (p : RPattern) : Bool := p.any (fun it => it.lo != 0)

/-- No atom of the pattern accepts `'['` or `']'`. -/
def noBracketPat (p : RPattern) : Bool :=
  p.all (fun it => !(it.cls '[') && !(it.cls ']'))

/-- No position of `s` (ends included) admits a match of `p`. -/
def NoM (p : RPattern) (s : List Char) : Prop :=
  ∀ j, matchItems p (List.drop j s) = none

theorem takeCls_le_length (cls : Char → Bool) (s : List Char) :
    takeCls cls s ≤ s.length := by
  induction s with
  | nil => exact Nat.le_refl 0
  | cons c rest ih =>
    simp only [takeCls, List.length_cons]
    split
    · omega
    · omega

theorem cls_of_le_takeCls {cls : Char → Bool} :
    ∀ {s : List Char} {j : Nat}, j ≤ takeCls cls s →
      ∀ c ∈ s.take j, cls c = true := by
  intro s
  induction s with
  | nil => intro j _ c hc; simp at hc
  | cons a rest ih =>
    intro j hj c hc
    cases j with
    | zero => simp at hc
    | succ j =>
      by_cases ha : cls a = true
      · simp only [takeCls, ha, if_true] at hj
        rcases List.mem_cons.mp (by simpa using hc) with rfl | hc'
        · exact ha
        · exact ih (Nat.le_of_succ_le_succ hj) c hc'
      · exfalso
        simp [takeCls, ha] at hj

theorem takeCls_ge_run {cls : Char → Bool} :
    ∀ {run s : List Char}, (∀ c ∈ run, cls c = true) → run <+: s →
      run.length ≤ takeCls cls s := by
  intro run
  induction run with
  | nil => intro s _ _; exact Nat.zero_le _
  | cons a run' ih =>
    intro s hall hpre
    cases s with
    | nil => exact absurd (List.eq_nil_of_prefix_nil hpre) (by simp)
    | cons b s' =>
      rcases (List.cons_prefix_cons.mp hpre) with ⟨rfl, hpre'⟩
      have ha : cls a = true := hall a (List.mem_cons_self a run')
      simp only [takeCls, ha, if_true, List.length_cons]
      exact Nat.succ_le_succ (ih (fun c hc => hall c (List.mem_cons_of_mem a hc)) hpre')

theorem some_orElse_unit {α : Type} (a : α) (f : Unit → Option α) :
    (some a).orElse f = some a := rfl

theorem tryCounts_some {next : List Char → Option Nat} {s : List Char} :
    ∀ (t k m : Nat), tryCounts next s k t = some m →
      ∃ j m', k - t ≤ j ∧ j ≤ k ∧ next (List.drop j s) = some m' ∧ m = j + m' := by
  intro t
  induction t with
  | zero =>
    intro k m h
    simp only [tryCounts, Option.map_eq_some'] at h
    obtain ⟨m', hm', rfl⟩ := h
    exact ⟨k, m', by omega, Nat.le_refl k, hm', rfl⟩
  | succ t ih =>
    intro k m h
    unfold tryCounts at h
    cases hk : next (List.drop k s) with
    | some m'' =>
      rw [hk] at h
      simp only [Option.map_some', some_orElse_unit, Option.some.injEq] at h
      exact ⟨k, m'', by omega, Nat.le_refl k, hk, by omega⟩
    | none =>
      rw [hk] at h
      simp only [Option.map_none', Option.none_orElse] at h
      cases k with
      | zero => simp at h
      | succ k' =>
        obtain ⟨j, m', hj1, hj2, hnext, rfl⟩ := ih k' m h
        exact ⟨j, m', by omega, by omega, hnext, rfl⟩

theorem tryCounts_isSome {next : List Char → Option Nat} {s : List Char} :
    ∀ (t k j : Nat), k - t ≤ j → j ≤ k → (next (List.drop j s)).isSome →
      (tryCounts next s k t).isSome := by
  intro t
  induction t with
  | zero =>
    intro k j h1 h2 hs
    have : j = k := by omega
    subst this
    simp only [tryCounts, Option.isSome_map']
    exact hs
  | succ t ih =>
    intro k j h1 h2 hs
    unfold tryCounts
    cases hk : next (List.drop k s) with
    | some m'' => simp
    | none =>
      simp only [Option.map_none', Option.none_orElse]
      have hjk : j ≠ k := by
        intro h
        subst h
        rw [hk] at hs
        simp at hs
      cases k with
      | zero => omega
      | succ k' => exact ih k' j (by omega) (by omega) hs

theorem matchItems_sound :
    ∀ (p : RPattern) (s : List Char) (k : Nat),
      matchItems p s = some k → Matches p (s.take k) := by
  intro p
  induction p with
  | nil =>
    intro s k h
    simp only [matchItems, Option.some.injEq] at h
    subst h
    simpa using Matches.nil
  | cons it rest ih =>
    intro s k h
    simp only [matchItems] at h
    by_cases hcap : capOf it s < it.lo
    · simp [hcap] at h
    · simp only [if_neg hcap] at h
      obtain ⟨j, m', hj1, hj2, hnext, rfl⟩ := tryCounts_some _ _ _ h
      have hlo : it.lo ≤ j := by
        have : capOf it s - (capOf it s - it.lo) = it.lo := by omega
        omega
      have hjtake : j ≤ takeCls it.cls s := by
        have : capOf it s ≤ takeCls it.cls s := by
          unfold capOf
          cases it.hi <;> simp
        omega
      have hjlen : j ≤ s.length := Nat.le_trans hjtake (takeCls_le_length _ _)
      have hfits : itFits it (s.take j) := by
        refine ⟨?_, ?_, cls_of_le_takeCls hjtake⟩
        · rw [List.length_take]; omega
        · intro h hh
          rw [List.length_take]
          have : capOf it s ≤ h := by
            unfold capOf
            rw [hh]
            simp
          omega
      have hM := ih (List.drop j s) m' hnext
      have := Matches.cons hfits hM
      rwa [← List.take_add] at this

theorem matchItems_complete :
    ∀ (p : RPattern) (w s : List Char),
      Matches p w → w <+: s → (matchItems p s).isSome := by
  intro p
  induction p with
  | nil => intro w s _ _; simp [matchItems]
  | cons it rest ih =>
    intro w s hM hpre
    cases hM with
    | cons hfits hM' =>
      rename_i run w'
      have hrun_pre : run <+: s := ((run.prefix_append w').trans hpre)
      have htake : run.length ≤ takeCls it.cls s := takeCls_ge_run hfits.2.2 hrun_pre
      have hcapge : run.length ≤ capOf it s := by
        unfold capOf
        cases hhi : it.hi with
        | none => simpa using htake
        | some h =>
          have := hfits.2.1 h hhi
          simp [Nat.le_min]
          omega
      have hcap : ¬ capOf it s < it.lo := by
        have := hfits.1
        omega
      simp only [matchItems, if_neg hcap]
      have hlo' := hfits.1
      apply tryCounts_isSome _ (capOf it s) run.length (by omega) hcapge
      apply ih w'
      · exact hM'
      · obtain ⟨v, hv⟩ := hpre
        rw [← hv, List.append_assoc, List.drop_left]
        exact w'.prefix_append v

/-- Every character of a match satisfies some atom's class. -/
theorem Matches_chars {p : RPattern} {w : List Char} (h : Matches p w) :
    ∀ c ∈ w, ∃ it ∈ p, it.cls c = true := by
  induction h with
  | nil => intro c hc; simp at hc
  | cons hfits _ ih =>
    rename_i it rest run w' _
    intro c hc
    rcases List.mem_append.mp hc with hc | hc
    · exact ⟨it, List.mem_cons_self _ _, hfits.2.2 c hc⟩
    · obtain ⟨it', hmem, hcls⟩ := ih c hc
      exact ⟨it', List.mem_cons_of_mem _ hmem, hcls⟩

theorem Matches_no_bracket {p : RPattern} {w : List Char}
    (hp : noBracketPat p = true) (h : Matches p w) : '[' ∉ w ∧ ']' ∉ w := by
  have hall := List.all_eq_true.mp hp
  constructor
  · intro hin
    obtain ⟨it, hmem, hcls⟩ := Matches_chars h '[' hin
    have := hall it hmem
    simp only [Bool.and_eq_true, Bool.not_eq_true'] at this
    rw [this.1] at hcls
    exact absurd hcls (by simp)
  · intro hin
    obtain ⟨it, hmem, hcls⟩ := Matches_chars h ']' hin
    have := hall it hmem
    simp only [Bool.and_eq_true, Bool.not_eq_true'] at this
    rw [this.2] at hcls
    exact absurd hcls (by simp)

theorem Matches_ne_nil {p : RPattern} {w : List Char}
    (hp : hasPosB p = true) (h : Matches p w) : w ≠ [] := by
  induction h with
  | nil => simp [hasPosB] at hp
  | cons hfits _ ih =>
    rename_i it rest run w' _
    simp only [hasPosB, List.any_cons, Bool.or_eq_true] at hp
    rcases hp with hp | hp
    · have : 1 ≤ it.lo := by
        simp only [bne_iff_ne] at hp
        omega
      have : 1 ≤ run.length := Nat.le_trans this hfits.1
      intro hnil
      rw [List.append_eq_nil] at hnil
      rw [hnil.1] at this
      simp at this
    · intro hnil
      rw [List.append_eq_nil] at hnil
      exact ih hp hnil.2

theorem matchItems_ne_zero {p : RPattern} {s : List Char}
    (hp : hasPosB p = true) : matchItems p s ≠ some 0 := by
  intro h
  have := matchItems_sound p s 0 h
  simp only [List.take_zero] at this
  exact Matches_ne_nil hp this rfl

theorem matchItems_nil_none {p : RPattern} (hp : hasPosB p = true) :
    matchItems p [] = none := by
  cases h : matchItems p [] with
  | none => rfl
  | some k =>
    have := matchItems_sound p [] k h
    simp only [List.take_nil] at this
    exact absurd rfl (Matches_ne_nil hp this)

theorem infix_iff_prefix_drop {w s : List Char} :
    w <:+: s ↔ ∃ j, w <+: List.drop j s := by
  constructor
  · rintro ⟨u, v, huv⟩
    refine ⟨u.length, ?_⟩
    rw [← huv, List.append_assoc, List.drop_left]
    exact w.prefix_append v
  · rintro ⟨j, t, ht⟩
    exact ⟨s.take j, t, by rw [List.append_assoc, ht, List.take_append_drop]⟩

theorem prefix_append_cases {w x b : List Char} (h : w <+: x ++ b) :
    w <+: x ∨ x <+: w := by
  have hx : x <+: x ++ b := x.prefix_append b
  rcases Nat.le_total w.length x.length with hl | hl
  · exact Or.inl (List.prefix_of_prefix_length_le h hx hl)
  · exact Or.inr (List.prefix_of_prefix_length_le hx h hl)

/-- A nonempty bracket-free infix of a redaction token lies inside the
token's interior. -/
theorem infix_token_mid {w mid : List Char} (hw : w ≠ []) (h1 : '[' ∉ w)
    (h2 : ']' ∉ w) (h : w <:+: '[' :: mid ++ [']']) : w <:+: mid := by
  rw [infix_iff_prefix_drop] at h
  obtain ⟨j, hpre⟩ := h
  cases j with
  | zero =>
    rw [List.drop_zero] at hpre
    cases w with
    | nil => exact absurd rfl hw
    | cons a w' =>
      rcases List.cons_prefix_cons.mp hpre with ⟨rfl, _⟩
      exact absurd (List.mem_cons_self _ _) h1
  | succ j =>
    have hpre' : w <+: List.drop j (mid ++ [']']) := hpre
    by_cases hj : j ≤ mid.length
    · rw [List.drop_append_of_le_length hj] at hpre'
      rcases prefix_append_cases hpre' with hc | hc
      · exact infix_iff_prefix_drop.mpr ⟨j, hc⟩
      · obtain ⟨w₂, rfl⟩ := hc
        have hw₂ : w₂ <+: [']'] := (List.prefix_append_right_inj _).mp hpre'
        obtain ⟨t, ht⟩ := hw₂
        cases w₂ with
        | nil =>
          rw [List.append_nil]
          exact infix_iff_prefix_drop.mpr ⟨j, List.prefix_rfl⟩
        | cons b w₂' =>
          have hb : b = ']' := by
            have := congrArg (List.headI) ht
            simpa using this
          exact absurd (List.mem_append_right _ (hb ▸ List.mem_cons_self b w₂')) h2
    · have hlen : (mid ++ [']']).length ≤ j := by
        simp only [List.length_append, List.length_cons, List.length_nil]
        omega
      rw [List.drop_eq_nil_of_le hlen] at hpre'
      rw [List.prefix_nil] at hpre'
      exact absurd hpre' hw

/-- A nonempty bracket-free infix of `token ++ b` lies inside the token
interior or inside `b`. -/
theorem infix_token_append {w mid b : List Char} (hw : w ≠ []) (h1 : '[' ∉ w)
    (h2 : ']' ∉ w) (h : w <:+: ('[' :: mid ++ [']']) ++ b) :
    w <:+: mid ∨ w <:+: b := by
  rw [infix_iff_prefix_drop] at h
  obtain ⟨j, hpre⟩ := h
  by_cases hj : ('[' :: mid ++ [']']).length ≤ j
  · right
    have hsplit : j = ('[' :: mid ++ [']']).length + (j - ('[' :: mid ++ [']']).length) := by
      omega
    rw [hsplit, List.drop_append] at hpre
    exact infix_iff_prefix_drop.mpr ⟨_, hpre⟩
  · rw [List.drop_append_of_le_length (by omega)] at hpre
    rcases prefix_append_cases hpre with hc | hc
    · exact Or.inl (infix_token_mid hw h1 h2 (infix_iff_prefix_drop.mpr ⟨j, hc⟩))
    · exfalso
      apply h2
      apply hc.subset
      have htok : ('[' :: mid ++ [']'] : List Char) = ('[' :: mid) ++ [']'] := by
        simp
      have hj' : j ≤ ('[' :: mid).length := by
        simp only [List.length_cons, List.length_append, List.length_nil] at hj ⊢
        omega
      rw [htok, List.drop_append_of_le_length hj']
      exact List.mem_append_right _ (List.mem_singleton.mpr rfl)

/-- Bracket-free prefixes of the scan output are prefixes of the input:
every emitted replacement starts with `'['`, so such a prefix consists
of kept input characters only. -/
theorem scan_prefix {p : RPattern} {mid : List Char} :
    ∀ (f : Nat) (s w : List Char), '[' ∉ w →
      w <+: (scanAux p ('[' :: mid) f s).2 → w <+: s := by
  intro f
  induction f with
  | zero => intro s w _ h; exact h
  | succ f ih =>
    intro s w hbr h
    cases s with
    | nil =>
      cases hm : matchItems p [] with
      | some m =>
        simp only [scanAux, hm] at h
        cases w with
        | nil => exact List.nil_prefix
        | cons a w' =>
          rcases List.cons_prefix_cons.mp h with ⟨rfl, _⟩
          exact absurd (List.mem_cons_self _ _) hbr
      | none =>
        simp only [scanAux, hm] at h
        rw [List.prefix_nil] at h
        rw [h]
    | cons c rest =>
      cases hm : matchItems p (c :: rest) with
      | none =>
        simp only [scanAux, hm] at h
        cases w with
        | nil => exact List.nil_prefix
        | cons a w' =>
          rcases List.cons_prefix_cons.mp h with ⟨rfl, h'⟩
          exact List.cons_prefix_cons.mpr
            ⟨rfl, ih rest w' (fun hx => hbr (List.mem_cons_of_mem _ hx)) h'⟩
      | some k =>
        cases k with
        | zero =>
          simp only [scanAux, hm, List.cons_append] at h
          cases w with
          | nil => exact List.nil_prefix
          | cons a w' =>
            rcases List.cons_prefix_cons.mp h with ⟨rfl, _⟩
            exact absurd (List.mem_cons_self _ _) hbr
        | succ k' =>
          simp only [scanAux, hm, List.cons_append] at h
          cases w with
          | nil => exact List.nil_prefix
          | cons a w' =>
            rcases List.cons_prefix_cons.mp h with ⟨rfl, _⟩
            exact absurd (List.mem_cons_self _ _) hbr

/-- Central analysis of a pass's output: a nonempty bracket-free infix
lies inside the token interior, or is a block of kept input characters
starting at a position where the scan found no (positive) match. -/
theorem scan_infix {p : RPattern} {mid : List Char} :
    ∀ (f : Nat) (s w : List Char), s.length < f → w ≠ [] → '[' ∉ w → ']' ∉ w →
      w <:+: (scanAux p ('[' :: mid ++ [']']) f s).2 →
      w <:+: mid ∨ ∃ j, w <+: List.drop j s ∧
        (matchItems p (List.drop j s) = none ∨
          matchItems p (List.drop j s) = some 0) := by
  intro f
  induction f with
  | zero => intro s w hf; exact absurd hf (Nat.not_lt_zero _)
  | succ f ih =>
    intro s w hf hw h1 h2 hinf
    cases s with
    | nil =>
      cases hm : matchItems p [] with
      | some m =>
        simp only [scanAux, hm] at hinf
        exact Or.inl (infix_token_mid hw h1 h2 hinf)
      | none =>
        simp only [scanAux, hm] at hinf
        rw [List.infix_nil] at hinf
        exact absurd hinf hw
    | cons c rest =>
      have hfr : rest.length < f := by
        simp only [List.length_cons] at hf
        omega
      cases hm : matchItems p (c :: rest) with
      | none =>
        simp only [scanAux, hm] at hinf
        rcases List.infix_cons_iff.mp hinf with hpre | hinf'
        · cases w with
          | nil => exact absurd rfl hw
          | cons a w' =>
            rcases List.cons_prefix_cons.mp hpre with ⟨rfl, h'⟩
            have hw' : w' <+: rest :=
              scan_prefix f rest w' (fun hx => h1 (List.mem_cons_of_mem _ hx)) h'
            refine Or.inr ⟨0, ?_, Or.inl (by simpa using hm)⟩
            have hcp : a :: w' <+: a :: rest := List.cons_prefix_cons.mpr ⟨rfl, hw'⟩
            simpa using hcp
        · rcases ih rest w hfr hw h1 h2 hinf' with hmid | ⟨j, hj1, hj2⟩
          · exact Or.inl hmid
          · exact Or.inr ⟨j + 1,
              by simpa [List.drop_succ_cons] using hj1,
              by simpa [List.drop_succ_cons] using hj2⟩
      | some k =>
        cases k with
        | zero =>
          simp only [scanAux, hm] at hinf
          rcases infix_token_append hw h1 h2 hinf with hmid | hrest
          · exact Or.inl hmid
          · rcases List.infix_cons_iff.mp hrest with hpre | hinf'
            · cases w with
              | nil => exact absurd rfl hw
              | cons a w' =>
                rcases List.cons_prefix_cons.mp hpre with ⟨rfl, h'⟩
                have hw' : w' <+: rest :=
                  scan_prefix f rest w' (fun hx => h1 (List.mem_cons_of_mem _ hx)) h'
                refine Or.inr ⟨0, ?_, Or.inr (by simpa using hm)⟩
                have hcp : a :: w' <+: a :: rest := List.cons_prefix_cons.mpr ⟨rfl, hw'⟩
                simpa using hcp
            · rcases ih rest w hfr hw h1 h2 hinf' with hmid | ⟨j, hj1, hj2⟩
              · exact Or.inl hmid
              · exact Or.inr ⟨j + 1,
                  by simpa [List.drop_succ_cons] using hj1,
                  by simpa [List.drop_succ_cons] using hj2⟩
        | succ k' =>
          simp only [scanAux, hm] at hinf
          rcases infix_token_append hw h1 h2 hinf with hmid | hrest
          · exact Or.inl hmid
          · have hfd : (List.drop k' rest).length < f := by
              rw [List.length_drop]
              omega
            rcases ih (List.drop k' rest) w hfd hw h1 h2 hrest with hmid | ⟨j, hj1, hj2⟩
            · exact Or.inl hmid
            · refine Or.inr ⟨k' + j + 1, ?_, ?_⟩
              · rw [List.drop_succ_cons, ← List.drop_drop]
                exact hj1
              · rw [List.drop_succ_cons, ← List.drop_drop]
                exact hj2

/-- No position of the token interior `mid` matches `q`. -/
def tokClean (q : RPattern) (mid : List Char) : Prop :=
  ∀ j, matchItems q (List.drop j mid) = none

theorem tokClean_of_all {q : RPattern} {mid : List Char}
    (h : (List.range (mid.length + 1)).all
        (fun j => (matchItems q (List.drop j mid)).isNone) = true) :
    tokClean q mid := by
  intro j
  by_cases hj : j ≤ mid.length
  · have := List.all_eq_true.mp h j (List.mem_range.mpr (by omega))
    simpa [Option.isNone_iff_eq_none] using this
  · rw [List.drop_eq_nil_of_le (by omega : mid.length ≤ j)]
    have := List.all_eq_true.mp h mid.length (List.mem_range.mpr (by omega))
    rw [List.drop_eq_nil_of_le (Nat.le_refl _)] at this
    simpa [Option.isNone_iff_eq_none] using this

theorem take_drop_infix (s : List Char) (j k : Nat) :
    (List.take k (List.drop j s)) <:+: s :=
  infix_iff_prefix_drop.mpr ⟨j, List.take_prefix _ _⟩

/-- A pass can never re-fire on its own output. -/
theorem scan_establish {p : RPattern} {mid : List Char}
    (hpos : hasPosB p = true) (hbr : noBracketPat p = true) (htok : tokClean p mid)
    (f : Nat) (s : List Char) (hf : s.length < f) :
    NoM p (scanAux p ('[' :: mid ++ [']']) f s).2 := by
  intro j
  cases hm : matchItems p (List.drop j (scanAux p ('[' :: mid ++ [']']) f s).2) with
  | none => rfl
  | some k =>
    exfalso
    have hM := matchItems_sound _ _ _ hm
    have hne := Matches_ne_nil hpos hM
    have hbrw := Matches_no_bracket hbr hM
    have hinf := take_drop_infix (scanAux p ('[' :: mid ++ [']']) f s).2 j k
    rcases scan_infix f s _ hf hne hbrw.1 hbrw.2 hinf with hmid | ⟨j', hpre, hfail⟩
    · rw [infix_iff_prefix_drop] at hmid
      obtain ⟨j'', hpre'⟩ := hmid
      have := matchItems_complete p _ _ hM hpre'
      rw [htok j''] at this
      simp at this
    · have hsome := matchItems_complete p _ _ hM hpre
      rcases hfail with hfail | hfail
      · rw [hfail] at hsome
        simp at hsome
      · exact matchItems_ne_zero hpos hfail

/-- A pattern that matches nowhere in the input matches nowhere in any
pass's output (the pass's own pattern and token being arbitrary). -/
theorem scan_preserve {p q : RPattern} {mid : List Char}
    (hpos : hasPosB q = true) (hbr : noBracketPat q = true) (htok : tokClean q mid)
    {s : List Char} (hN : NoM q s) (f : Nat) (hf : s.length < f) :
    NoM q (scanAux p ('[' :: mid ++ [']']) f s).2 := by
  intro j
  cases hm : matchItems q (List.drop j (scanAux p ('[' :: mid ++ [']']) f s).2) with
  | none => rfl
  | some k =>
    exfalso
    have hM := matchItems_sound _ _ _ hm
    have hne := Matches_ne_nil hpos hM
    have hbrw := Matches_no_bracket hbr hM
    have hinf := take_drop_infix (scanAux p ('[' :: mid ++ [']']) f s).2 j k
    rcases scan_infix f s _ hf hne hbrw.1 hbrw.2 hinf with hmid | ⟨j', hpre, _⟩
    · rw [infix_iff_prefix_drop] at hmid
      obtain ⟨j'', hpre'⟩ := hmid
      have := matchItems_complete q _ _ hM hpre'
      rw [htok j''] at this
      simp at this
    · have hsome := matchItems_complete q _ _ hM hpre
      rw [hN j'] at hsome
      simp at hsome

theorem scanAux_id_of_NoM {p : RPattern} {repl : List Char} :
    ∀ (f : Nat) (s : List Char), NoM p s → scanAux p repl f s = ([], s) := by
  intro f
  induction f with
  | zero => intro s _; rfl
  | succ f ih =>
    intro s hN
    cases s with
    | nil =>
      have h0 : matchItems p [] = none := by simpa using hN 0
      simp [scanAux, h0]
    | cons c rest =>
      have h0 : matchItems p (c :: rest) = none := by simpa using hN 0
      simp only [scanAux, h0]
      rw [ih rest (fun j => by simpa [List.drop_succ_cons] using hN (j + 1))]

/-- A scan that records no match visited (and failed at) every position. -/
theorem scan_all_none {p : RPattern} {repl : List Char} :
    ∀ (f : Nat) (s : List Char), s.length < f → (scanAux p repl f s).1 = [] →
      NoM p s := by
  intro f
  induction f with
  | zero => intro s hf _; exact absurd hf (Nat.not_lt_zero _)
  | succ f ih =>
    intro s hf h1
    cases s with
    | nil =>
      intro j
      rw [List.drop_nil]
      cases hm : matchItems p [] with
      | none => rfl
      | some m =>
        exfalso
        simp [scanAux, hm] at h1
    | cons c rest =>
      cases hm : matchItems p (c :: rest) with
      | some k =>
        exfalso
        cases k with
        | zero => simp [scanAux, hm] at h1
        | succ k' => simp [scanAux, hm] at h1
      | none =>
        simp only [scanAux, hm] at h1
        have hrest := ih rest (by simp only [List.length_cons] at hf; omega)
          (by simpa using h1)
        intro j
        cases j with
        | zero => simpa using hm
        | succ j => simpa [List.drop_succ_cons] using hrest j

/-- Interior of the phone redaction token. -/
def telMid : List Char := "telefon gizlendi".data

/-- Interior of the e-mail redaction token. -/
def emailMid : List Char := "email gizlendi".data

/-- Interior of the social-media redaction token. -/
def socialMid : List Char := "sosyal medya gizlendi".data

/-- Interior of the banned-word redaction token. -/
def contentMid : List Char := "içerik gizlendi".data

theorem telTok_shape : telTok.data = '[' :: telMid ++ [']'] := rfl

theorem emailTok_shape : emailTok.data = '[' :: emailMid ++ [']'] := rfl

theorem socialTok_shape : socialTok.data = '[' :: socialMid ++ [']'] := rfl

theorem contentTok_shape : contentTok.data = '[' :: contentMid ++ [']'] := rfl

/-- The ten static passes in the order `filter_ugc_content` runs them:
(violation type, pattern, redaction token). -/
def STATIC_PASSES : List (String × RPattern × String) :=
  [("phone_number", turkishPhonePat, telTok),
   ("phone_number", intlPhonePat, telTok),
   ("phone_number", simplePhonePat, telTok),
   ("phone_number", parenPhonePat, telTok),
   ("email", EMAIL_PATTERN, emailTok),
   ("social_media", atHandlePat, socialTok),
   ("social_media", instagramPat, socialTok),
   ("social_media", twitterPat, socialTok),
   ("social_media", facebookPat, socialTok),
   ("social_media", telegramPat, socialTok)]

/-- The ten static patterns. -/
def ALL_STATIC_PATTERNS : List RPattern :=
  PHONE_PATTERNS ++ [EMAIL_PATTERN] ++ SOCIAL_PATTERNS

/-- Running a list of passes in order. -/
def runPasses : List (String × RPattern × String) → String × List Violation →
    String × List Violation
  | [], st => st
  | pr :: rest, st => runPasses rest (runPat pr.1 pr.2.1 pr.2.2 st)

theorem static_eq_runPasses (t : String) :
    static_filter_passes t = runPasses STATIC_PASSES (t, []) := by
  simp only [static_filter_passes, runPats, STATIC_PASSES, runPasses,
    PHONE_PATTERNS, SOCIAL_PATTERNS, List.foldl]

/-- An active banned-word row that does not fire on `t`: the literal does
not occur case-insensitively, the regex does not `re.search`-match. -/
def bannedMisses (t : String) : BannedEntry → Prop
  | .lit w => containsCI w t = false
  | .rx p _ => reSearch p t = false

/-- The pass's token is bracket-delimited and its interior cannot match `q`. -/
def passShapeOK (q : RPattern) (pr : String × RPattern × String) : Prop :=
  ∃ mid, pr.2.2.data = '[' :: mid ++ [']'] ∧ tokClean q mid

theorem runPat_establish {ty : String} {p : RPattern} {tok : String} {mid : List Char}
    (hshape : tok.data = '[' :: mid ++ [']'])
    (hpos : hasPosB p = true) (hbr : noBracketPat p = true) (htok : tokClean p mid)
    (st : String × List Violation) :
    NoM p ((runPat ty p tok st).1).data := by
  unfold runPat
  by_cases hms : (reFindall p st.1).isEmpty = true
  · simp only [hms, if_true]
    have hemp : (reScan p [] st.1.data).1 = [] := by
      unfold reFindall at hms
      rw [List.isEmpty_iff] at hms
      exact List.map_eq_nil_iff.mp hms
    exact scan_all_none _ _ (Nat.lt_succ_self _) hemp
  · simp only [hms, if_false]
    show NoM p (reScan p tok.data st.1.data).2
    rw [hshape]
    exact scan_establish hpos hbr htok _ _ (Nat.lt_succ_self _)

theorem runPat_preserve {ty : String} {p : RPattern} {tok : String} {mid : List Char}
    {q : RPattern} (hshape : tok.data = '[' :: mid ++ [']'])
    (hposq : hasPosB q = true) (hbrq : noBracketPat q = true) (htokq : tokClean q mid)
    {st : String × List Violation} (hN : NoM q st.1.data) :
    NoM q ((runPat ty p tok st).1).data := by
  unfold runPat
  by_cases hms : (reFindall p st.1).isEmpty = true
  · simp only [hms, if_true]
    exact hN
  · simp only [hms, if_false]
    show NoM q (reScan p tok.data st.1.data).2
    rw [hshape]
    exact scan_preserve hposq hbrq htokq hN _ (Nat.lt_succ_self _)

theorem runPasses_preserve {q : RPattern}
    (hposq : hasPosB q = true) (hbrq : noBracketPat q = true) :
    ∀ (passes : List (String × RPattern × String)) (st : String × List Violation),
      (∀ pr ∈ passes, passShapeOK q pr) → NoM q st.1.data →
      NoM q ((runPasses passes st).1).data := by
  intro passes
  induction passes with
  | nil => intro st _ h; exact h
  | cons pr rest ih =>
    intro st hsh hN
    obtain ⟨mid, hshape, htokq⟩ := hsh pr (List.mem_cons_self _ _)
    exact ih _ (fun x hx => hsh x (List.mem_cons_of_mem _ hx))
      (runPat_preserve hshape hposq hbrq htokq hN)

theorem runPasses_establish {q : RPattern}
    (hposq : hasPosB q = true) (hbrq : noBracketPat q = true) :
    ∀ (passes : List (String × RPattern × String)) (st : String × List Violation),
      (∀ pr ∈ passes, passShapeOK q pr) → (∃ pr ∈ passes, pr.2.1 = q) →
      NoM q ((runPasses passes st).1).data := by
  intro passes
  induction passes with
  | nil =>
    intro st _ hex
    obtain ⟨pr, hm, _⟩ := hex
    exact absurd hm (List.not_mem_nil _)
  | cons pr rest ih =>
    intro st hsh hex
    obtain ⟨pr', hm', heq⟩ := hex
    rcases List.mem_cons.mp hm' with rfl | hm'
    · obtain ⟨mid, hshape, htokq⟩ := hsh pr' (List.mem_cons_self _ _)
      subst heq
      exact runPasses_preserve hposq hbrq rest _
        (fun x hx => hsh x (List.mem_cons_of_mem _ hx))
        (runPat_establish hshape hposq hbrq htokq st)
    · exact ih _ (fun x hx => hsh x (List.mem_cons_of_mem _ hx)) ⟨pr', hm', heq⟩

/-- Banned-word entries that miss the text leave it unchanged. -/
theorem runBanned_id {banned : List BannedEntry} {t : String} {vs : List Violation}
    (h : ∀ e ∈ banned, bannedMisses t e) : runBanned banned (t, vs) = (t, vs) := by
  induction banned with
  | nil => rfl
  | cons e rest ih =>
    have htail : ∀ x ∈ rest, bannedMisses t x :=
      fun x hx => h x (List.mem_cons_of_mem e hx)
    cases e with
    | lit w =>
      have he : containsCI w t = false := h (.lit w) (List.mem_cons_self _ _)
      simp only [runBanned, he, Bool.false_eq_true, if_false]
      exact ih htail
    | rx p w =>
      have he : reSearch p t = false := h (.rx p w) (List.mem_cons_self _ _)
      simp only [runBanned, he, Bool.false_eq_true, if_false]
      exact ih htail

/-- A pattern matching nowhere survives the whole banned-word stage:
each firing entry rewrites via the same scan with the bracket-delimited
`[içerik gizlendi]` token. -/
theorem runBanned_preserve {q : RPattern} (hposq : hasPosB q = true)
    (hbrq : noBracketPat q = true) (htokq : tokClean q contentMid) :
    ∀ (banned : List BannedEntry) (st : String × List Violation),
      NoM q st.1.data → NoM q ((runBanned banned st).1).data := by
  intro banned
  induction banned with
  | nil => intro st h; exact h
  | cons e rest ih =>
    intro st h
    cases e with
    | lit w =>
      show NoM q ((runBanned rest
        (if containsCI w st.1 then
          (reSub (litStrCI w) contentTok st.1, st.2 ++ [⟨"banned_word", [w]⟩])
        else st)).1).data
      apply ih
      by_cases hc : containsCI w st.1 = true
      · simp only [hc, if_true]
        show NoM q (reScan (litStrCI w) contentTok.data st.1.data).2
        rw [contentTok_shape]
        exact scan_preserve hposq hbrq htokq h _ (Nat.lt_succ_self _)
      · simp only [hc, if_false]
        exact h
    | rx p w =>
      show NoM q ((runBanned rest
        (if reSearch p st.1 then
          (reSub p contentTok st.1, st.2 ++ [⟨"banned_word", [w]⟩])
        else st)).1).data
      apply ih
      by_cases hc : reSearch p st.1 = true
      · simp only [hc, if_true]
        show NoM q (reScan p contentTok.data st.1.data).2
        rw [contentTok_shape]
        exact scan_preserve hposq hbrq htokq h _ (Nat.lt_succ_self _)
      · simp only [hc, if_false]
        exact h

theorem runPat_id_of_NoM {ty : String} {p : RPattern} {tok : String}
    (st : String × List Violation) (hN : NoM p st.1.data) :
    runPat ty p tok st = st := by
  unfold runPat
  have hemp : reFindall p st.1 = [] := by
    unfold reFindall reScan
    rw [scanAux_id_of_NoM _ _ hN]
    rfl
  rw [hemp]
  rfl

theorem runPasses_id :
    ∀ (passes : List (String × RPattern × String)) (st : String × List Violation),
      (∀ pr ∈ passes, NoM pr.2.1 st.1.data) → runPasses passes st = st := by
  intro passes
  induction passes with
  | nil => intro st _; rfl
  | cons pr rest ih =>
    intro st h
    show runPasses rest (runPat pr.1 pr.2.1 pr.2.2 st) = st
    rw [runPat_id_of_NoM st (h pr (List.mem_cons_self _ _))]
    exact ih st (fun x hx => h x (List.mem_cons_of_mem _ hx))

theorem pass_pattern_mem : ∀ pr ∈ STATIC_PASSES, pr.2.1 ∈ ALL_STATIC_PATTERNS := by
  intro pr hpr
  simp only [STATIC_PASSES, List.mem_cons, List.not_mem_nil, or_false] at hpr
  rcases hpr with rfl | rfl | rfl | rfl | rfl | rfl | rfl | rfl | rfl | rfl <;>
    simp [ALL_STATIC_PATTERNS, PHONE_PATTERNS, SOCIAL_PATTERNS]

/-- A text none of the ten static patterns can match anywhere, that the
profanity dictionary reports clean and every active banned word misses,
passes through the whole filter unchanged with no violations. -/
theorem filter_id_of_NoM (prof : String → Bool) (censor : String → String)
    (banned : List BannedEntry) (t : String)
    (hN : ∀ q ∈ ALL_STATIC_PATTERNS, NoM q t.data)
    (hprof : prof t = false) (hban : ∀ e ∈ banned, bannedMisses t e) :
    filter_ugc_content prof censor banned (some t) = ⟨t, t, true, []⟩ := by
  by_cases ht : t = ""
  · subst ht
    rfl
  · simp only [filter_ugc_content, if_neg ht]
    have hstat : static_filter_passes t = (t, []) := by
      rw [static_eq_runPasses]
      exact runPasses_id STATIC_PASSES (t, [])
        (fun pr hpr => hN pr.2.1 (pass_pattern_mem pr hpr))
    rw [hstat]
    simp only [hprof, Bool.false_eq_true, if_false]
    rw [runBanned_id hban]
    rfl

/-- Decidable form of `tokClean`. -/
def tokCleanB (q : RPattern) (mid : List Char) : Bool :=
  (List.range (mid.length + 1)).all
    (fun j => (matchItems q (List.drop j mid)).isNone)

/-- Every static pattern has an atom of positive minimum width and no atom
accepting a bracket. -/
theorem static_pos_br_all :
    ALL_STATIC_PATTERNS.all (fun q => hasPosB q && noBracketPat q) = true := by
  decide

/-- No static pattern matches inside any of the four redaction-token
interiors. -/
theorem static_tokens_clean :
    ALL_STATIC_PATTERNS.all (fun q =>
      tokCleanB q telMid && tokCleanB q emailMid &&
      tokCleanB q socialMid && tokCleanB q contentMid) = true := by
  decide

theorem pass_shapes : ∀ q ∈ ALL_STATIC_PATTERNS, ∀ pr ∈ STATIC_PASSES,
    passShapeOK q pr := by
  intro q hq pr hpr
  have h := List.all_eq_true.mp static_tokens_clean q hq
  rw [Bool.and_eq_true, Bool.and_eq_true, Bool.and_eq_true] at h
  obtain ⟨⟨⟨h1, h2⟩, h3⟩, _⟩ := h
  simp only [STATIC_PASSES, List.mem_cons, List.not_mem_nil, or_false] at hpr
  rcases hpr with rfl | rfl | rfl | rfl | rfl | rfl | rfl | rfl | rfl | rfl <;>
    first
      | exact ⟨telMid, telTok_shape, tokClean_of_all h1⟩
      | exact ⟨emailMid, emailTok_shape, tokClean_of_all h2⟩
      | exact ⟨socialMid, socialTok_shape, tokClean_of_all h3⟩

theorem static_mem_pass : ∀ q ∈ ALL_STATIC_PATTERNS,
    ∃ pr ∈ STATIC_PASSES, pr.2.1 = q := by
  intro q hq
  rcases List.mem_append.mp hq with h1 | h1
  · rcases List.mem_append.mp h1 with h2 | h2
    · simp only [PHONE_PATTERNS, List.mem_cons, List.not_mem_nil, or_false] at h2
      rcases h2 with rfl | rfl | rfl | rfl
      · exact ⟨("phone_number", turkishPhonePat, telTok), by simp [STATIC_PASSES], rfl⟩
      · exact ⟨("phone_number", intlPhonePat, telTok), by simp [STATIC_PASSES], rfl⟩
      · exact ⟨("phone_number", simplePhonePat, telTok), by simp [STATIC_PASSES], rfl⟩
      · exact ⟨("phone_number", parenPhonePat, telTok), by simp [STATIC_PASSES], rfl⟩
    · rw [List.mem_singleton] at h2
      subst h2
      exact ⟨("email", EMAIL_PATTERN, emailTok), by simp [STATIC_PASSES], rfl⟩
  · simp only [SOCIAL_PATTERNS, List.mem_cons, List.not_mem_nil, or_false] at h1
    rcases h1 with rfl | rfl | rfl | rfl | rfl
    · exact ⟨("social_media", atHandlePat, socialTok), by simp [STATIC_PASSES], rfl⟩
    · exact ⟨("social_media", instagramPat, socialTok), by simp [STATIC_PASSES], rfl⟩
    · exact ⟨("social_media", twitterPat, socialTok), by simp [STATIC_PASSES], rfl⟩
    · exact ⟨("social_media", facebookPat, socialTok), by simp [STATIC_PASSES], rfl⟩
    · exact ⟨("social_media", telegramPat, socialTok), by simp [STATIC_PASSES], rfl⟩

/-- `filter_ugc_content` is not idempotent: with the word `gizlendi` on the
active banned-word list, the first call on `"gizlendi"` redacts it to
`[içerik gizlendi]`, and a second call on that very output finds the banned
word again inside the redaction token, records a fresh violation and
rewrites the text once more. -/
theorem filter_not_idempotent :
    (filter_ugc_content (fun _ => false) (fun s => s) [.lit "gizlendi"]
        (some "gizlendi")).filtered_text = "[içerik gizlendi]" ∧
    (filter_ugc_content (fun _ => false) (fun s => s) [.lit "gizlendi"]
        (some "[içerik gizlendi]")).filtered_text =
      "[içerik [içerik gizlendi]]" ∧
    (filter_ugc_content (fun _ => false) (fun s => s) [.lit "gizlendi"]
        (some "[içerik gizlendi]")).violations ≠ [] := by
  decide

/-- **C3.** Calling `filter_ugc_content` on its own `filtered_text` is the
identity whenever the two dynamic stages stay quiet — the profanity
dictionary reports the first call's static-pass output and its final output
clean, and every active banned-word row misses that output (its literal
does not occur case-insensitively, its regex finds no match). Under no
further assumption on the text, the second call returns the first output
unchanged, flagged clean, with an empty violation list; moreover none of
the ten static phone/e-mail/social patterns can match anywhere in the
first call's output, so the static passes alone are always idempotent. -/
theorem filter_idempotent_amended (prof : String → Bool)
    (censor : String → String) (banned : List BannedEntry) (text : String)
    (hprof1 : prof (static_filter_passes text).1 = false)
    (hprof2 :
      prof (filter_ugc_content prof censor banned (some text)).filtered_text
        = false)
    (hban : ∀ e ∈ banned, bannedMisses
      (filter_ugc_content prof censor banned (some text)).filtered_text e) :
    (∀ q ∈ ALL_STATIC_PATTERNS,
      NoM q ((filter_ugc_content prof censor banned (some text)).filtered_text).data) ∧
    filter_ugc_content prof censor banned
        (some (filter_ugc_content prof censor banned (some text)).filtered_text) =
      ⟨(filter_ugc_content prof censor banned (some text)).filtered_text,
       (filter_ugc_content prof censor banned (some text)).filtered_text,
       true, []⟩ := by
  by_cases htext : text = ""
  · subst htext
    constructor
    · intro q hq
      have hpb := List.all_eq_true.mp static_pos_br_all q hq
      rw [Bool.and_eq_true] at hpb
      intro j
      show matchItems q (List.drop j []) = none
      rw [List.drop_nil]
      exact matchItems_nil_none hpb.1
    · rfl
  · have hft : (filter_ugc_content prof censor banned (some text)).filtered_text
        = (runBanned banned (static_filter_passes text)).1 := by
      simp only [filter_ugc_content, if_neg htext, hprof1, Bool.false_eq_true,
        if_false]
    have hNoM : ∀ q ∈ ALL_STATIC_PATTERNS,
        NoM q ((filter_ugc_content prof censor banned (some text)).filtered_text).data := by
      intro q hq
      rw [hft]
      have hpb := List.all_eq_true.mp static_pos_br_all q hq
      rw [Bool.and_eq_true] at hpb
      have hcl := List.all_eq_true.mp static_tokens_clean q hq
      rw [Bool.and_eq_true, Bool.and_eq_true, Bool.and_eq_true] at hcl
      apply runBanned_preserve hpb.1 hpb.2 (tokClean_of_all hcl.2)
      rw [static_eq_runPasses]
      exact runPasses_establish hpb.1 hpb.2 STATIC_PASSES _
        (pass_shapes q hq) (static_mem_pass q hq)
    exact ⟨hNoM, filter_id_of_NoM prof censor banned _ hNoM hprof2 hban⟩

theorem filter_idempotent_amended_witness :
    filter_ugc_content (fun _ => false) (fun s => s) []
        (some (filter_ugc_content (fun _ => false) (fun s => s) []
          (some "merhaba dünya")).filtered_text) =
      ⟨(filter_ugc_content (fun _ => false) (fun s => s) []
          (some "merhaba dünya")).filtered_text,
       (filter_ugc_content (fun _ => false) (fun s => s) []
          (some "merhaba dünya")).filtered_text, true, []⟩ :=
  (filter_idempotent_amended (fun _ => false) (fun s => s) [] "merhaba dünya"
    rfl rfl (fun e he => absurd he (List.not_mem_nil e))).2


/-- **C4.** A WebSocket connection whose resolved identity is anonymous,
or whose identity is not a participant of the target conversation, is
closed: it is never added to the conversation's broadcast group (the
group state is unchanged), so no `group_send` to any room can deliver
to its channel. -/
theorem connect_authorization_gate (convs : List ConvRec) (g : GroupState)
    (cid : Nat) (user : Option Nat) (channel : Nat)
    (hfresh : ∀ m ∈ g.members, m.2 ≠ channel)
    (hbad : user = none ∨
      ∃ uid, user = some uid ∧ check_participant convs cid uid = false) :
    (connect convs g cid user channel).1 = .closed ∧
    (connect convs g cid user channel).2 = g ∧
    ∀ room, channel ∉ group_send_targets (connect convs g cid user channel).2 room := by
  have hg : connect convs g cid user channel = (.closed, g) := by
    rcases hbad with rfl | ⟨uid, rfl, hchk⟩
    · rfl
    · simp [connect, hchk]
  refine ⟨by rw [hg], by rw [hg], ?_⟩
  intro room hmem
  rw [hg] at hmem
  simp only [group_send_targets, List.mem_map] at hmem
  obtain ⟨m, hmf, hm2⟩ := hmem
  exact hfresh m (List.mem_of_mem_filter hmf) hm2

/-- Witness for C4: an authenticated non-participant connecting to
conversation 1 is closed, the group stays empty, and its channel gets
no deliveries. -/
theorem connect_authorization_gate_witness :
    (connect [⟨1, "direct", [5]⟩] ⟨[]⟩ 1 (some 9) 3).1 = .closed ∧
    (connect [⟨1, "direct", [5]⟩] ⟨[]⟩ 1 (some 9) 3).2 = ⟨[]⟩ ∧
    ∀ room, 3 ∉ group_send_targets (connect [⟨1, "direct", [5]⟩] ⟨[]⟩ 1 (some 9) 3).2 room :=
  connect_authorization_gate [⟨1, "direct", [5]⟩] ⟨[]⟩ 1 (some 9) 3
    (by simp) (Or.inr ⟨9, rfl, by decide⟩)

/-- **C8.** Self-exclusion asymmetry: a `typing` event is never written
back to a connection of its own sender (and is delivered, with the
sender's display name, to every other member), while a `chat_message`
event is written to every member's connection including the sender's
own. -/
theorem typing_chat_delivery (members : List (Nat × Nat)) (senderId : Nat)
    (name : String) (isTyping : Bool) (content : String) (mf : Bool) :
    typing_indicator_handler senderId senderId name isTyping = none ∧
    (∀ u, u ≠ senderId →
      typing_indicator_handler u senderId name isTyping =
        some (.typing senderId name isTyping)) ∧
    (∀ u, chat_message_handler u content senderId mf =
      some (.chat content senderId mf)) ∧
    broadcast_typing members senderId name isTyping =
      members.map (fun m => (m.1,
        if m.2 = senderId then none else some (.typing senderId name isTyping))) ∧
    broadcast_chat members content senderId mf =
      members.map (fun m => (m.1, some (.chat content senderId mf))) := by
  have hp : ∀ m : Nat × Nat,
      typing_indicator_handler m.2 senderId name isTyping =
        if m.2 = senderId then none else some (.typing senderId name isTyping) := by
    intro m
    by_cases hm : m.2 = senderId
    · simp [typing_indicator_handler, hm]
    · simp [typing_indicator_handler, Ne.symm hm, hm]
  refine ⟨by simp [typing_indicator_handler], ?_, fun u => rfl, ?_, rfl⟩
  · intro u hu
    simp [typing_indicator_handler, Ne.symm hu]
  · simp only [broadcast_typing, hp]

/-- Witness for C8: user 7's typing event reaches user 3 but not user 7. -/
theorem typing_chat_delivery_witness :
    typing_indicator_handler 7 7 "ayse" true = none ∧
    typing_indicator_handler 3 7 "ayse" true = some (.typing 7 "ayse" true) :=
  ⟨(typing_chat_delivery [] 7 "ayse" true "hi" false).1,
   (typing_chat_delivery [] 7 "ayse" true "hi" false).2.1 3 (by decide)⟩

/-- **C5 (counterexample).** A direct conversation whose participant set
is exactly the pair {10, 20} exists (id 2), but a more recent direct
conversation containing both users with a third participant (id 1)
shadows it in `.first()`, so the view creates a brand-new conversation
instead of returning the existing pair conversation. -/
theorem create_conversation_dedup_cex :
    ((⟨2, "direct", [10, 20]⟩ : ConvRec) ∈
      ([⟨1, "direct", [10, 20, 30]⟩, ⟨2, "direct", [10, 20]⟩] : List ConvRec)) ∧
    (create_conversation ⟨[⟨1, "direct", [10, 20, 30]⟩, ⟨2, "direct", [10, 20]⟩], 3⟩
        [] 10 [20] none [10, 20, 30]).1 = .created ⟨3, "direct", [10, 20]⟩ ∧
    (create_conversation ⟨[⟨1, "direct", [10, 20, 30]⟩, ⟨2, "direct", [10, 20]⟩], 3⟩
        [] 10 [20] none [10, 20, 30]).2.conversations.length = 3 := by
  refine ⟨by decide, by decide, by decide⟩

/-- **C5 (amended).** With no blocking and an active partner distinct
from the requester: if the most recent direct conversation containing
both users has exactly two participants, the view returns it and the
store is unchanged; otherwise (none exists, or the most recent one has
a different participant count) a new direct conversation with exactly
the two participants is created and returned. -/
theorem create_conversation_dedup_amended (db : MessagingDB)
    (requester pid : Nat) (activeUsers : List Nat)
    (hne : pid ≠ requester) (hact : activeUsers.contains pid = true) :
    (∀ c,
      (db.conversations.filter fun c =>
        c.conversation_type == "direct" && c.participants.contains requester
          && c.participants.contains pid).head? = some c →
      c.participants.length = 2 →
      create_conversation db [] requester [pid] none activeUsers = (.existing c, db)) ∧
    (((db.conversations.filter fun c =>
        c.conversation_type == "direct" && c.participants.contains requester
          && c.participants.contains pid).head? = none ∨
      (∀ c,
        (db.conversations.filter fun c =>
          c.conversation_type == "direct" && c.participants.contains requester
            && c.participants.contains pid).head? = some c →
        c.participants.length ≠ 2)) →
      create_conversation db [] requester [pid] none activeUsers =
        (.created ⟨db.nextConvId, "direct", [requester, pid]⟩,
         ⟨⟨db.nextConvId, "direct", [requester, pid]⟩ :: db.conversations,
          db.nextConvId + 1⟩)) := by
  have hblocked : (List.any [pid] fun x => List.contains ([] : List Nat) x) = false := rfl
  have hbne : (pid != requester) = true := bne_iff_ne.mpr hne
  have hmem : pid ∈ activeUsers := by simpa using hact
  have hparts :
      ([pid].filter (fun p => activeUsers.contains p)).dedup.filter
          (fun p => p != requester) = [pid] := by
    have h1 : [pid].filter (fun p => activeUsers.contains p) = [pid] := by
      simp [List.filter_cons, hmem]
    rw [h1, List.dedup_cons_of_not_mem (List.not_mem_nil pid), List.dedup_nil]
    simp [List.filter_cons, hbne]
  constructor
  · intro c hc hlen
    have hl2 : (c.participants.length == 2) = true := by simp [hlen]
    simp only [create_conversation, hblocked, Bool.false_eq_true, if_false, hc]
    simp [hl2]
  · intro hnone
    simp only [create_conversation, hblocked, Bool.false_eq_true, if_false, hparts,
      Option.isSome_none]
    rcases hnone with hnone | hne2
    · rw [hnone]
    · cases hc : (db.conversations.filter fun c =>
          c.conversation_type == "direct" && c.participants.contains requester
            && c.participants.contains pid).head? with
      | none => rfl
      | some c =>
        have hl2 : (c.participants.length == 2) = false := by
          simp [hne2 c hc]
        simp [hl2]

/-- Witness for the amended C5: with exactly one direct pair
conversation present, the view returns it unchanged. -/
theorem create_conversation_dedup_amended_witness :
    create_conversation ⟨[⟨1, "direct", [10, 20]⟩], 5⟩ [] 10 [20] none [10, 20] =
      (.existing ⟨1, "direct", [10, 20]⟩, ⟨[⟨1, "direct", [10, 20]⟩], 5⟩) :=
  (create_conversation_dedup_amended ⟨[⟨1, "direct", [10, 20]⟩], 5⟩ 10 20 [10, 20]
      (by decide) (by decide)).1 ⟨1, "direct", [10, 20]⟩ (by decide) (by decide)

/-- **C6.** Responding "approve" to an application when the activity's
remaining capacity is smaller than the application's declared group
size fails with a validation error and changes neither the
participation nor the activity; with sufficient capacity and a pending
application, approval succeeds and adds exactly `group_member_count` to
`current_participants` (and, through
`save(update_fields=['current_participants'])`, persists no status
change). -/
theorem respond_application_capacity (a : ActivityRec) (p : ParticipationRec)
    (req : Nat) (now : Int) (hcreator : a.creator = req) :
    (spots_left a < p.group_member_count →
      respond_to_application a p req "approve" now = (.capacityError, p, a)) ∧
    (¬ spots_left a < p.group_member_count → p.status = "pending" →
      (respond_to_application a p req "approve" now).1 = .responded ∧
      (respond_to_application a p req "approve" now).2.1.status = "approved" ∧
      (respond_to_application a p req "approve" now).2.2.current_participants =
        a.current_participants + p.group_member_count ∧
      (respond_to_application a p req "approve" now).2.2.status = a.status) := by
  have hcr : (a.creator != req) = false := by simp [hcreator]
  constructor
  · intro hlt
    simp [respond_to_application, hcr, hlt]
  · intro hge hpend
    have hp : (p.status != "approved") = true := by simp [hpend]
    simp [respond_to_application, hcr, hge, participation_approve, hp]

/-- Witness for C6, the spec scenario: `max_participants = 5`,
`current_participants = 4`, `group_member_count = 2` is rejected with
the capacity error and both records unchanged. -/
theorem respond_application_capacity_witness :
    respond_to_application ⟨9, 5, 4, "active", 0, none⟩ ⟨2, "pending", 2, none⟩
        9 "approve" 0 =
      (.capacityError, ⟨2, "pending", 2, none⟩, ⟨9, 5, 4, "active", 0, none⟩) :=
  (respond_application_capacity ⟨9, 5, 4, "active", 0, none⟩ ⟨2, "pending", 2, none⟩
      9 0 rfl).1 (by decide)

/-- **C7.** On every save the activity's status steps through the state
machine of `Activity.save`: `active` becomes `full` when the
participant count has reached the maximum; `active` (not full) and
`full` become `completed` once the end time — or the start time when no
end is set — has passed (an activity that is simultaneously full and
past steps to `full` first and to `completed` on the following save);
any other status is left unchanged, and no other field is touched. -/
theorem activity_status_transitions (a : ActivityRec) (now : Int) :
    ((activity_save a now).current_participants = a.current_participants ∧
     (activity_save a now).max_participants = a.max_participants ∧
     (activity_save a now).start_time = a.start_time ∧
     (activity_save a now).end_time = a.end_time) ∧
    (a.status = "active" → a.current_participants = a.max_participants →
      (activity_save a now).status = "full") ∧
    (a.status = "active" → activity_is_full a = false → activity_is_past a now = true →
      (activity_save a now).status = "completed") ∧
    (a.status = "full" → activity_is_past a now = true →
      (activity_save a now).status = "completed") ∧
    (a.status = "active" → activity_is_past a now = true →
      (activity_save (activity_save a now) now).status = "completed") ∧
    (a.status ≠ "active" → a.status ≠ "full" →
      (activity_save a now).status = a.status) := by
  have hfull_step : ∀ b : ActivityRec, b.status = "full" →
      activity_is_past b now = true → (activity_save b now).status = "completed" := by
    intro b hst hp
    simp [activity_save, activity_save_status, hst, hp]
  have hcompleted_step : ∀ b : ActivityRec, b.status = "completed" →
      (activity_save b now).status = "completed" := by
    intro b hst
    simp [activity_save, activity_save_status, hst]
  refine ⟨⟨rfl, rfl, rfl, rfl⟩, ?_, ?_, hfull_step a, ?_, ?_⟩
  · intro hst heq
    have hf : activity_is_full a = true := by
      simp [activity_is_full, heq]
    simp [activity_save, activity_save_status, hf, hst]
  · intro hst hnf hp
    simp [activity_save, activity_save_status, hnf, hst, hp]
  · intro hst hp
    by_cases hf : activity_is_full a = true
    · have h1 : (activity_save a now).status = "full" := by
        simp [activity_save, activity_save_status, hf, hst]
      exact hfull_step (activity_save a now) h1 hp
    · have hnf : activity_is_full a = false := by
        cases h : activity_is_full a
        · rfl
        · exact absurd h hf
      have h1 : (activity_save a now).status = "completed" := by
        simp [activity_save, activity_save_status, hnf, hst, hp]
      exact hcompleted_step (activity_save a now) h1
  · intro h1 h2
    have hne1 : (a.status == "active") = false := beq_eq_false_iff_ne.mpr h1
    have hne2 : (a.status == "full") = false := beq_eq_false_iff_ne.mpr h2
    simp [activity_save, activity_save_status, hne1, hne2]

/-- Witness for C7: a full active activity whose start time has passed
steps to `full` on this save and to `completed` on the next. -/
theorem activity_status_transitions_witness :
    (activity_save ⟨1, 5, 5, "active", 0, none⟩ 1).status = "full" ∧
    (activity_save (activity_save ⟨1, 5, 5, "active", 0, none⟩ 1) 1).status =
      "completed" :=
  ⟨(activity_status_transitions ⟨1, 5, 5, "active", 0, none⟩ 1).2.1 rfl rfl,
   (activity_status_transitions ⟨1, 5, 5, "active", 0, none⟩ 1).2.2.2.2.1 rfl
      (by decide)⟩

/-- **C10.** The bulk mark-read operation shared verbatim by the
conversation-detail view, the mark-read endpoint and the WebSocket
`read` handler sets `is_read` on exactly the unread rows of the
addressed conversation not sent by the requester, and changes no other
field — in particular `read_at` is untouched (so a row whose `read_at`
was null keeps it null); only the per-message `Message.mark_as_read`,
which no bulk path calls, writes `read_at`. -/
theorem bulk_read_frame (msgs : List MessageRec) (cid req : Nat)
    (m : MessageRec) (now : Int) :
    mark_messages_read msgs cid req = msgs.map (bulk_read_row cid req) ∧
    (bulk_read_row cid req m).is_read =
      (m.is_read || (m.conversation == cid && m.sender != req)) ∧
    (bulk_read_row cid req m).read_at = m.read_at ∧
    (bulk_read_row cid req m).content = m.content ∧
    (bulk_read_row cid req m).is_filtered = m.is_filtered ∧
    (bulk_read_row cid req m).original_content = m.original_content ∧
    (bulk_read_row cid req m).sender = m.sender ∧
    (bulk_read_row cid req m).conversation = m.conversation ∧
    (bulk_read_row cid req m).created_at = m.created_at ∧
    (m.is_read = false → mark_as_read m now =
      { m with is_read := true, read_at := some now }) := by
  refine ⟨rfl, ?_,
    (by unfold bulk_read_row; split <;> rfl),
    (by unfold bulk_read_row; split <;> rfl),
    (by unfold bulk_read_row; split <;> rfl),
    (by unfold bulk_read_row; split <;> rfl),
    (by unfold bulk_read_row; split <;> rfl),
    (by unfold bulk_read_row; split <;> rfl),
    (by unfold bulk_read_row; split <;> rfl),
    ?_⟩
  · cases hr : m.is_read
    · by_cases h1 : (m.conversation == cid) = true <;>
        by_cases h2 : (m.sender != req) = true <;>
          simp [bulk_read_row, hr, h1, h2]
    · simp [bulk_read_row, hr]
  · intro hr
    simp [mark_as_read, hr]

/-- Witness for C10: an unread row of conversation 1 from user 5 is
marked read by requester 9 with `read_at` still null, while
`mark_as_read` on the same row stamps `read_at`. -/
theorem bulk_read_frame_witness :
    (bulk_read_row 1 9 ⟨1, 5, "x", false, "", false, none, 0⟩).is_read = true ∧
    (bulk_read_row 1 9 ⟨1, 5, "x", false, "", false, none, 0⟩).read_at = none ∧
    mark_as_read ⟨1, 5, "x", false, "", false, none, 0⟩ 3 =
      ⟨1, 5, "x", false, "", true, some 3, 0⟩ := by
  refine ⟨?_, ?_, ?_⟩
  · rw [(bulk_read_frame [] 1 9 ⟨1, 5, "x", false, "", false, none, 0⟩ 3).2.1]
    decide
  · exact (bulk_read_frame [] 1 9 ⟨1, 5, "x", false, "", false, none, 0⟩ 3).2.2.1
  · exact (bulk_read_frame [] 1 9 ⟨1, 5, "x", false, "", false, none, 0⟩ 3).2.2.2.2.2.2.2.2.2 rfl

end Godo
